import Mathlib

/-!
Shallow embedding of the opening-book builder (`mkbook.py`) of the chessdb
repository: the move codec, the Polyglot entry packer, the position-statistics
table with its insert/merge operations, the ranked-player relevance filter,
the ingestion gates, and the book encoder.  Machine integers are modelled as
`Nat` with explicit wrap (`% 65535`) where the source wraps; Python `assert`
is modelled by `Option`; Python float division in the sort key is modelled by
exact rational division.
-/

/-- Per-move statistics, mirroring the `MoveStats` dataclass:
win / loss counters plus the ply depth of the observation. -/
structure MoveStats where
  win : Nat
  loss : Nat
  depth : Nat
deriving DecidableEq

/-- A candidate move entry in a position's list: the move is identified by its
canonical UCI text (`move.uci()` in the source); `stats` is the attached
`MoveStats` record. -/
structure BMove where
  uci : String
  stats : MoveStats
deriving DecidableEq

/-- A chess move as the codec sees it: origin square index, destination square
index, optional promotion piece type (python-chess encodes the four promotion
pieces KNIGHT..QUEEN as 2..5). -/
structure PyMove where
  from_square : Nat
  to_square : Nat
  promotion : Option Nat
deriving DecidableEq

/-- Python function `encode_move`: destination in the low 6 bits, origin in bits 6-11,
`(promotion - 1) &&& 0x7` in bits 12-14 (0 when there is no promotion). -/
def encode_move (move : PyMove) : Nat :=
  let promotion : Nat :=
    match move.promotion with
    | some p => ((p - 1) &&& 0x7) <<< 12
    | none => 0
  move.to_square ||| (move.from_square <<< 6) ||| promotion

/-- The inverse transformation, as written out in the repository's own
`test_encode_move`: low 6 bits are the destination, bits 6-11 the origin,
bits 12-14 the promotion part (`part + 1` when nonzero, else no promotion). -/
def decode_move (raw : Nat) : PyMove :=
  let to_square := raw &&& 0x3f
  let from_square := (raw >>> 6) &&& 0x3f
  let promotion_part := (raw >>> 12) &&& 0x7
  let promotion := if promotion_part ≠ 0 then some (promotion_part + 1) else none
  ⟨from_square, to_square, promotion⟩

/-- Python function `log2`: `int(math.log(n, 2)) if n else 0`, i.e. the floor of the base-2
logarithm for positive `n` and `0` for `n = 0`. -/
def log2 (n : Nat) : Nat :=
  if n = 0 then 0 else Nat.log 2 n

/-- Python function `stats(move)`: the (weight, learn) pair passed to `make_entry`:
`max(1, log2(win))` and `log2(loss)`. -/
def stats (m : BMove) : Nat × Nat :=
  (max 1 (log2 m.stats.win), log2 m.stats.loss)

/-- Python function `make_entry`: asserts `weight > 0` (the `learn >= 0` assert is vacuous over
`Nat`), then packs `(key, encode_move(move), weight % 65535, learn % 65535)`.
A failed assert (Python exception) is modelled by `none`. -/
def make_entry (key : Nat) (move : PyMove) (weight : Nat) (learn : Nat := 0) :
    Option (Nat × Nat × Nat × Nat) :=
  if 0 < weight then some (key, encode_move move, weight % 65535, learn % 65535)
  else none

/-- Python function `add_move(moves_list, new_move)`: the first entry whose UCI text equals the
new move's has its counters summed and its depth replaced by the minimum;
when no entry matches, the new move is appended. -/
def add_move : List BMove → BMove → List BMove
  | [], new_move => [new_move]
  | move :: rest, new_move =>
    if move.uci = new_move.uci then
      ⟨move.uci, ⟨move.stats.win + new_move.stats.win,
                  move.stats.loss + new_move.stats.loss,
                  min move.stats.depth new_move.stats.depth⟩⟩ :: rest
    else
      move :: add_move rest new_move

/-- Folding a whole list of observations into an accumulator list with
`add_move`: the inner loop of `merge`. -/
def merge_list (acc : List BMove) (ms : List BMove) : List BMove :=
  ms.foldl add_move acc

/-- A position-statistics table: the `defaultdict(list)` keyed by the Zobrist
hash, modelled as a total function (missing keys map to `[]`). -/
def Table : Type := Nat → List BMove

/-- The empty table. -/
def emptyTable : Table := fun _ => []

/-- Python function `add(table, board, new_move)` with `k = key(board)`. -/
def add (t : Table) (k : Nat) (new_move : BMove) : Table :=
  fun q => if q = k then add_move (t q) new_move else t q

/-- Python function `merge(table)` restated functionally: every moves list of the scratch
table `s` is folded into the global table `g` with `add_move`, key by key. -/
def merge (g s : Table) : Table :=
  fun k => merge_list (g k) (s k)

/-- Merging a sequence of scratch tables into an initially empty global
accumulator, in order. -/
def mergeAll (ts : List Table) : Table :=
  ts.foldl merge emptyTable

/-- Pointwise combination of two statistics records, as performed by
`add_move` on a UCI match: counters summed, depth minimised. -/
def combS (s t : MoveStats) : MoveStats :=
  ⟨s.win + t.win, s.loss + t.loss, min s.depth t.depth⟩

/-- One step of aggregating statistics: absorb one more observation into an
optional running aggregate. -/
def statComb (a : Option MoveStats) (s : MoveStats) : Option MoveStats :=
  match a with
  | none => some s
  | some t => some (combS t s)

/-- The statistics records carried by the entries of `l` whose UCI text is
`u`, in list order. -/
def statsList (l : List BMove) (u : String) : List MoveStats :=
  (l.filter (fun x => x.uci == u)).map (fun x => x.stats)

/-- The cumulative (summed wins, summed losses, minimum depth) aggregate of
all entries of `l` carrying UCI text `u`; `none` when there is no such
entry. -/
def cumStats (l : List BMove) (u : String) : Option MoveStats :=
  (statsList l u).foldl statComb none

/-- The statistics of the (first) entry of `l` with UCI text `u`, i.e. what a
lookup in the table's list finds. -/
def statsOf (l : List BMove) (u : String) : Option MoveStats :=
  (l.find? (fun x => x.uci == u)).map (fun x => x.stats)

/-- The three game results `WIN = 1`, `LOSS = 0`, `DRAW = 1/2` produced by the
PGN reader's result normalisation. -/
inductive GameResult where
  | win
  | loss
  | draw
deriving DecidableEq

/-- The statistics record attached by `on_move` for a given result at a given
depth: `WIN -> MoveStats(2, 0, depth)`, `LOSS -> MoveStats(0, 2, depth)`,
anything else (i.e. DRAW) `-> MoveStats(1, 0, depth)`. -/
def resultStats (r : GameResult) (depth : Nat) : MoveStats :=
  match r with
  | .win => ⟨2, 0, depth⟩
  | .loss => ⟨0, 2, depth⟩
  | .draw => ⟨1, 0, depth⟩

/-- The callback `on_move`: with `depth = len(board.move_stack)`, the observation is added
to the scratch table (at the position's key `k`, for the move's UCI text `u`)
only when `depth < args.depth` and the moving side's player is ranked. -/
def on_move (cfgDepth : Nat) (ranked : Bool) (r : GameResult) (depth : Nat)
    (t : Table) (k : Nat) (u : String) : Table :=
  if depth < cfgDepth then
    if ranked then add t k ⟨u, resultStats r depth⟩ else t
  else t

/-- A parsed game as the ingestion loop sees it: the length of
`list(game.mainline_moves())` and the per-game scratch table built by the
`on_meta`/`on_move` callbacks. -/
structure Game where
  numMoves : Nat
  scratch : Table

/-- The loop body of `read_pgn_file`: the game's scratch table is merged into
the global table exactly when `len(list(game.mainline_moves())) >= args.depth // 2`. -/
def processGame (cfgDepth : Nat) (glob : Table) (g : Game) : Table :=
  if cfgDepth / 2 ≤ g.numMoves then merge glob g.scratch else glob

/-- Python function `read_pgn_file` over the sequence of games of one file. -/
def read_pgn_file (cfgDepth : Nat) (games : List Game) (glob : Table) : Table :=
  games.foldl (processGame cfgDepth) glob

/-- ASCII whitespace, the character class removed by Python `str.strip()`. -/
def isSpaceChar (c : Char) : Bool :=
  c == ' ' || c == '\t' || c == '\n' || c == '\r' || c == '\x0b' || c == '\x0c'

/-- Python `str.strip()`. -/
def stripStr (s : String) : String :=
  ⟨((s.data.dropWhile isSpaceChar).reverse.dropWhile isSpaceChar).reverse⟩

/-- Python `str.lower()` (ASCII model). -/
def lowerStr (s : String) : String :=
  ⟨s.data.map Char.toLower⟩

/-- Python `','.join(parts)`. -/
def joinComma : List String → String
  | [] => ""
  | [s] => s
  | s :: rest => s ++ "," ++ joinComma rest

/-- Tests whether `p` is a literal prefix of `s`. -/
def strPre (p s : String) : Bool :=
  p.data.isPrefixOf s.data

/-- One compiled allow-list pattern.  `read_ranked` builds, for a CSV row
`(last, first)`, the regex `f'{last}$|{last}(,{first[0]})+'`; its data are the
lowercased stripped last name and the first initial. -/
structure NamePat where
  last : String
  initial : Char
deriving DecidableEq

/-- Matching of one such pattern against a formatted name string, modelling
Python `re.match` on the regex `last$|last(,initial)+`: either the string is
exactly the last name (the `last$` alternative), or it starts with
`last,initial` (the `last(,initial)+` alternative, which `re.match` accepts
as soon as one repetition matches at the start). -/
def patMatches (p : NamePat) (s : String) : Bool :=
  s == p.last || strPre (p.last ++ "," ++ ⟨[p.initial]⟩) s

/-- One row of the ranked-players CSV turned into a pattern.  A row with fewer
than two fields fails on `row[1]` and a row whose first name strips to the
empty string fails on `first[0]` (Python `IndexError`, modelled by `none`). -/
def mkPattern (row : List String) : Option NamePat :=
  match row with
  | lastRaw :: firstRaw :: _ =>
    let last := lowerStr (stripStr lastRaw)
    let first := lowerStr (stripStr firstRaw)
    match first.data with
    | c :: _ => some ⟨last, c⟩
    | [] => none
  | _ => none

/-- Python function `read_ranked`: every CSV row becomes one pattern; any failing row aborts
the whole read (the exception propagates). -/
def read_ranked (rows : List (List String)) : Option (List NamePat) :=
  rows.mapM mkPattern

/-- Python function `format_name`: `','.join(name).lower()`. -/
def format_name (name : List String) : String :=
  lowerStr (joinComma name)

/-- Python function `is_ranked`: with no allow-list (or an empty one, both falsy in Python)
every player is ranked; otherwise the formatted name is tested against every
pattern, and on failure the reversed name is tested the same way.  The
decision cache and the log file are value-irrelevant side effects and are not
modelled. -/
def is_ranked (rankedList : Option (List NamePat)) (name : List String) : Bool :=
  match rankedList with
  | none => true
  | some pats =>
    if pats.isEmpty then true
    else
      let n := format_name name
      if pats.any (fun p => patMatches p n) then true
      else pats.any (fun p => patMatches p (format_name name.reverse))

/-- The filter of `output_book`'s comprehension:
`move.stats.win >= max(2, move.stats.loss)`. -/
def passes (m : BMove) : Bool :=
  decide (max 2 m.stats.loss ≤ m.stats.win)

/-- Python function `_sort_key(move)`: `(move.stats.win / max(1, move.stats.loss), move.stats.win)`,
with the division modelled as exact rational division. -/
def sort_key (m : BMove) : ℚ × Nat :=
  ((m.stats.win : ℚ) / (max 1 m.stats.loss : ℚ), m.stats.win)

/-- Lexicographic ≤ on sort keys, the order Python uses on tuples. -/
def keyLE (x y : ℚ × Nat) : Prop :=
  x.1 < y.1 ∨ (x.1 = y.1 ∧ x.2 ≤ y.2)

instance (x y : ℚ × Nat) : Decidable (keyLE x y) := by
  unfold keyLE
  infer_instance

/-- The comparison under which `moves.sort(key=_sort_key, reverse=True)`
orders the list: `a` before `b` when `b`'s key is ≤ `a`'s. -/
def descBy (a b : BMove) : Bool :=
  decide (keyLE (sort_key b) (sort_key a))

/-- Stable insertion of `m` (a later element) into an already sorted prefix:
`m` goes after every element `x` with `le x m` — in particular after every
element tied with it, which is exactly the stability guarantee of Python's
sort. -/
def insertLE (le : α → α → Bool) (m : α) : List α → List α
  | [] => [m]
  | x :: xs => if le x m then x :: insertLE le m xs else m :: x :: xs

/-- A stable sort placing `a` before `b` whenever `le a b` (ties keep their
original order): the semantics of Python's stable `list.sort` / `sorted`. -/
def sortBy (le : α → α → Bool) (l : List α) : List α :=
  l.foldl (fun acc m => insertLE le m acc) []

/-- Python's stable in-place sort with `key=_sort_key, reverse=True`. -/
def sortMoves (l : List BMove) : List BMove :=
  sortBy descBy l

/-- The per-position emission of `output_book` as the source writes it: the
filtered list is computed and tested for emptiness, but then the *unfiltered*
list is sorted and truncated to `max_variations`. -/
def emitForKey (maxVar : Nat) (l : List BMove) : List BMove :=
  if (l.filter passes).isEmpty then [] else (sortMoves l).take maxVar

/-- The global table as `output_book` iterates it: its key/list items. -/
def OutTable : Type := List (Nat × List BMove)

/-- The key enumeration `sorted(__moves_table.keys())`. -/
def sortedKeys (tbl : OutTable) : List Nat :=
  sortBy (fun a b => decide (a ≤ b)) (tbl.map Prod.fst)

/-- The dictionary access `__moves_table[key]` for a key taken from `keys()`. -/
def lookupT (tbl : OutTable) (k : Nat) : List BMove :=
  ((tbl.find? (fun e => e.1 == k)).map Prod.snd).getD []

/-- Python function `output_book` as a record stream: keys in sorted order, each contributing
its emitted moves (this same move list feeds both the binary writer via
`make_entry` and the CSV writer). -/
def output_book (maxVar : Nat) (tbl : OutTable) : List (Nat × BMove) :=
  (sortedKeys tbl).flatMap (fun k => (emitForKey maxVar (lookupT tbl k)).map (fun m => (k, m)))

theorem and_0x3f (x : Nat) : x &&& 0x3f = x % 64 := by
  have h := Nat.and_pow_two_sub_one_eq_mod x 6
  norm_num at h
  exact h

theorem and_0x7 (x : Nat) : x &&& 0x7 = x % 8 := by
  have h := Nat.and_pow_two_sub_one_eq_mod x 3
  norm_num at h
  exact h

theorem lor_as_add (b a k : Nat) (h : b < 2 ^ k) :
    (a <<< k) ||| b = 2 ^ k * a + b := by
  rw [Nat.shiftLeft_eq, Nat.mul_comm]
  exact (Nat.mul_add_lt_is_or h a).symm

/-- C4: for every representable move (squares 0-63, promotion absent or one
of the four promotion piece types 2-5), decoding the 16-bit encoding yields
the original move: `decode_move (encode_move m) = m`. -/
theorem c4_roundtrip (m : PyMove)
    (h1 : m.from_square < 64) (h2 : m.to_square < 64)
    (h3 : m.promotion = none ∨ ∃ p, m.promotion = some p ∧ 2 ≤ p ∧ p ≤ 5) :
    decode_move (encode_move m) = m := by
  obtain ⟨f, t, pr⟩ := m
  simp only at h1 h2
  rcases h3 with h3 | ⟨p, hp, hp2, hp5⟩
  · simp only at h3
    subst h3
    have e1 : encode_move ⟨f, t, none⟩ = 64 * f + t := by
      simp only [encode_move, Nat.or_zero]
      rw [Nat.lor_comm]
      have := lor_as_add t f 6 (by omega)
      norm_num at this
      exact this
    rw [e1]
    simp only [decode_move, and_0x3f, and_0x7, Nat.shiftRight_eq_div_pow, PyMove.mk.injEq]
    norm_num
    refine ⟨by omega, by omega, ?_⟩
    have hz : (64 * f + t) / 4096 % 8 = 0 := by omega
    simp [hz]
  · simp only at hp
    subst hp
    have hpart : (p - 1) &&& 0x7 = p - 1 := by
      rw [and_0x7]
      omega
    have e1 : encode_move ⟨f, t, some p⟩ = 4096 * (p - 1) + (64 * f + t) := by
      simp only [encode_move, hpart]
      rw [Nat.lor_comm t (f <<< 6)]
      have i1 := lor_as_add t f 6 (by omega)
      norm_num at i1
      rw [i1]
      have i2 := lor_as_add (64 * f + t) (p - 1) 12 (by omega)
      rw [Nat.lor_comm]
      norm_num at i2
      exact i2
    rw [e1]
    simp only [decode_move, and_0x3f, and_0x7, Nat.shiftRight_eq_div_pow, PyMove.mk.injEq]
    norm_num
    refine ⟨by omega, by omega, ?_⟩
    have hpp : (4096 * (p - 1) + (64 * f + t)) / 4096 % 8 = p - 1 := by omega
    rw [hpp]
    have hne : p - 1 ≠ 0 := by omega
    simp [hne]
    omega

theorem c4_roundtrip_witness :
    (52 : Nat) < 64 ∧ (60 : Nat) < 64 ∧
      decode_move (encode_move ⟨52, 60, some 5⟩) = ⟨52, 60, some 5⟩ :=
  ⟨by decide, by decide,
    c4_roundtrip ⟨52, 60, some 5⟩ (by decide) (by decide)
      (Or.inr ⟨5, rfl, by decide, by decide⟩)⟩

theorem insertLE_perm {α : Type} (le : α → α → Bool) (m : α) (acc : List α) :
    List.Perm (insertLE le m acc) (m :: acc) := by
  induction acc with
  | nil => simp [insertLE]
  | cons x xs ih =>
    simp only [insertLE]
    by_cases h : le x m = true
    · simp only [h, if_true]
      exact (ih.cons x).trans (List.Perm.swap m x xs)
    · simp [h]

theorem sortBy_perm_aux {α : Type} (le : α → α → Bool) (l acc : List α) :
    List.Perm (l.foldl (fun acc m => insertLE le m acc) acc) (acc ++ l) := by
  induction l generalizing acc with
  | nil => simp
  | cons m ms ih =>
    simp only [List.foldl_cons]
    refine (ih (insertLE le m acc)).trans ?_
    refine (((insertLE_perm le m acc).append_right ms).trans ?_)
    exact List.perm_middle.symm

theorem sortBy_perm {α : Type} (le : α → α → Bool) (l : List α) :
    List.Perm (sortBy le l) l :=
  sortBy_perm_aux le l []

theorem insertLE_pairwise {α : Type} (le : α → α → Bool)
    (htrans : ∀ a b c, le a b = true → le b c = true → le a c = true)
    (htotal : ∀ a b, le a b = true ∨ le b a = true)
    (m : α) (acc : List α) (h : acc.Pairwise (fun a b => le a b = true)) :
    (insertLE le m acc).Pairwise (fun a b => le a b = true) := by
  induction acc with
  | nil => simp [insertLE]
  | cons x xs ih =>
    rcases List.pairwise_cons.mp h with ⟨hx, hxs⟩
    simp only [insertLE]
    by_cases hxm : le x m = true
    · simp only [hxm, if_true]
      refine List.pairwise_cons.mpr ⟨?_, ih hxs⟩
      intro z hz
      rcases List.mem_cons.mp ((insertLE_perm le m xs).mem_iff.mp hz) with rfl | hzz
      · exact hxm
      · exact hx z hzz
    · have hmx : le m x = true := (htotal m x).resolve_right (fun hc => hxm hc)
      simp only [Bool.not_eq_true] at hxm
      simp only [insertLE, hxm, Bool.false_eq_true, if_false]
      refine List.pairwise_cons.mpr ⟨?_, h⟩
      intro z hz
      rcases List.mem_cons.mp hz with rfl | hzz
      · exact hmx
      · exact htrans m x z hmx (hx z hzz)

theorem sortBy_pairwise {α : Type} (le : α → α → Bool)
    (htrans : ∀ a b c, le a b = true → le b c = true → le a c = true)
    (htotal : ∀ a b, le a b = true ∨ le b a = true)
    (l : List α) : (sortBy le l).Pairwise (fun a b => le a b = true) := by
  suffices haux : ∀ acc, acc.Pairwise (fun a b => le a b = true) →
      (l.foldl (fun acc m => insertLE le m acc) acc).Pairwise (fun a b => le a b = true) by
    exact haux [] List.Pairwise.nil
  induction l with
  | nil => intro acc hacc; exact hacc
  | cons m ms ih =>
    intro acc hacc
    simp only [List.foldl_cons]
    exact ih (insertLE le m acc) (insertLE_pairwise le htrans htotal m acc hacc)

theorem insertLE_filter_neg {α : Type} (le : α → α → Bool) (p : α → Bool)
    (m : α) (hm : p m = false) (acc : List α) :
    (insertLE le m acc).filter p = acc.filter p := by
  induction acc with
  | nil => simp [insertLE, hm]
  | cons x xs ih =>
    simp only [insertLE]
    by_cases h : le x m = true
    · simp only [h, if_true, List.filter_cons, ih]
    · simp [h, List.filter_cons, hm]

theorem insertLE_filter_pos {α : Type} (le : α → α → Bool) (p : α → Bool)
    (htrans : ∀ a b c, le a b = true → le b c = true → le a c = true)
    (m : α) (hm : p m = true) (acc : List α)
    (hs : acc.Pairwise (fun a b => le a b = true))
    (hties : ∀ z ∈ acc, p z = true → le z m = true) :
    (insertLE le m acc).filter p = acc.filter p ++ [m] := by
  induction acc with
  | nil => simp [insertLE, hm]
  | cons x xs ih =>
    rcases List.pairwise_cons.mp hs with ⟨hx, hxs⟩
    by_cases hxm : le x m = true
    · have ih2 := ih hxs (fun z hz hp => hties z (List.mem_cons_of_mem x hz) hp)
      simp only [insertLE, hxm, if_true]
      by_cases hpx : p x = true
      · simp [List.filter_cons, hpx, ih2]
      · simp only [Bool.not_eq_true] at hpx
        simp [List.filter_cons, hpx, ih2]
    · have hnone : (x :: xs).filter p = [] := by
        refine List.filter_eq_nil_iff.mpr ?_
        intro z hz hpz
        rcases List.mem_cons.mp hz with rfl | hzz
        · exact hxm (hties z hz hpz)
        · exact hxm (htrans x z m (hx z hzz) (hties z hz hpz))
      simp only [Bool.not_eq_true] at hxm
      simp only [insertLE, hxm, Bool.false_eq_true, if_false]
      simp [List.filter_cons, hm, hnone]

theorem sortBy_filter_eq {α : Type} (le : α → α → Bool) (p : α → Bool)
    (htrans : ∀ a b c, le a b = true → le b c = true → le a c = true)
    (htotal : ∀ a b, le a b = true ∨ le b a = true)
    (hkey : ∀ a b, p a = true → p b = true → le a b = true)
    (l : List α) : (sortBy le l).filter p = l.filter p := by
  suffices haux : ∀ acc, acc.Pairwise (fun a b => le a b = true) →
      (l.foldl (fun acc m => insertLE le m acc) acc).filter p = acc.filter p ++ l.filter p by
    simpa using haux [] List.Pairwise.nil
  induction l with
  | nil => intro acc _; simp
  | cons m ms ih =>
    intro acc hacc
    have hsort := insertLE_pairwise le htrans htotal m acc hacc
    simp only [List.foldl_cons]
    by_cases hm : p m = true
    · have h1 := insertLE_filter_pos le p htrans m hm acc hacc
        (fun z _ hz => hkey z m hz hm)
      rw [ih (insertLE le m acc) hsort, h1, List.filter_cons, hm]
      simp
    · simp only [Bool.not_eq_true] at hm
      have h1 := insertLE_filter_neg le p m hm acc
      rw [ih (insertLE le m acc) hsort, h1, List.filter_cons, hm]
      simp

theorem keyLE_trans (x y z : ℚ × Nat) (h1 : keyLE x y) (h2 : keyLE y z) : keyLE x z := by
  rcases h1 with h1 | ⟨e1, n1⟩ <;> rcases h2 with h2 | ⟨e2, n2⟩
  · exact Or.inl (lt_trans h1 h2)
  · exact Or.inl (e2 ▸ h1)
  · exact Or.inl (e1 ▸ h2)
  · exact Or.inr ⟨e1.trans e2, n1.trans n2⟩

theorem keyLE_total (x y : ℚ × Nat) : keyLE x y ∨ keyLE y x := by
  rcases lt_trichotomy x.1 y.1 with h | h | h
  · exact Or.inl (Or.inl h)
  · rcases Nat.le_total x.2 y.2 with h2 | h2
    · exact Or.inl (Or.inr ⟨h, h2⟩)
    · exact Or.inr (Or.inr ⟨h.symm, h2⟩)
  · exact Or.inr (Or.inl h)

theorem descBy_trans (a b c : BMove)
    (h1 : descBy a b = true) (h2 : descBy b c = true) : descBy a c = true := by
  simp only [descBy, decide_eq_true_eq] at h1 h2 ⊢
  exact keyLE_trans _ _ _ h2 h1

theorem descBy_total (a b : BMove) : descBy a b = true ∨ descBy b a = true := by
  simp only [descBy, decide_eq_true_eq]
  exact keyLE_total (sort_key b) (sort_key a)

theorem pairwise_of_all {α : Type} {R : α → α → Prop} (l : List α)
    (h : ∀ a ∈ l, ∀ b ∈ l, R a b) : l.Pairwise R := by
  induction l with
  | nil => exact List.Pairwise.nil
  | cons x xs ih =>
    refine List.pairwise_cons.mpr ⟨?_, ?_⟩
    · intro z hz
      exact h x (List.mem_cons_self x xs) z (List.mem_cons_of_mem x hz)
    · exact ih (fun a ha b hb => h a (List.mem_cons_of_mem x ha) b (List.mem_cons_of_mem x hb))

/-- C8: for every position the encoder emits, the moves appear in descending
order of the composite key `(win / max(1, loss), win)`, and moves with equal
composite keys keep their original insertion order (the sort is stable). -/
theorem c8_descending_rank_stable (l : List BMove) (v : Nat) (c : ℚ × Nat) :
    (emitForKey v l).Pairwise (fun a b => keyLE (sort_key b) (sort_key a)) ∧
    (sortMoves l).filter (fun m => decide (sort_key m = c)) =
      l.filter (fun m => decide (sort_key m = c)) := by
  constructor
  · have hp := sortBy_pairwise descBy descBy_trans descBy_total l
    have hp2 : (sortMoves l).Pairwise (fun a b => keyLE (sort_key b) (sort_key a)) := by
      refine hp.imp ?_
      intro a b hab
      simpa only [descBy, decide_eq_true_eq] using hab
    unfold emitForKey
    split
    · exact List.Pairwise.nil
    · exact List.Pairwise.sublist (List.take_sublist v _) hp2
  · refine sortBy_filter_eq descBy _ descBy_trans descBy_total ?_ l
    intro a b ha hb
    simp only [decide_eq_true_eq] at ha hb
    simp only [descBy, decide_eq_true_eq]
    exact Or.inr ⟨by rw [ha, hb], by rw [ha, hb]⟩

theorem natDec_trans (a b c : Nat)
    (h1 : decide (a ≤ b) = true) (h2 : decide (b ≤ c) = true) : decide (a ≤ c) = true := by
  simp only [decide_eq_true_eq] at h1 h2 ⊢
  omega

theorem natDec_total (a b : Nat) : decide (a ≤ b) = true ∨ decide (b ≤ a) = true := by
  simp only [decide_eq_true_eq]
  omega

theorem flatMap_fst_pairwise (ks : List Nat) (f : Nat → List BMove)
    (h : ks.Pairwise (· ≤ ·)) :
    ((ks.flatMap (fun k => (f k).map (fun m => (k, m)))).map Prod.fst).Pairwise (· ≤ ·) := by
  induction ks with
  | nil => simp
  | cons k ks ih =>
    rcases List.pairwise_cons.mp h with ⟨hk, hks⟩
    simp only [List.flatMap_cons, List.map_append, List.map_map]
    refine List.pairwise_append.mpr ⟨?_, ih hks, ?_⟩
    · refine pairwise_of_all _ ?_
      intro a ha b hb
      simp only [List.mem_map, Function.comp] at ha hb
      obtain ⟨_, _, rfl⟩ := ha
      obtain ⟨_, _, rfl⟩ := hb
      exact le_refl k
    · intro a ha b hb
      simp only [List.mem_map, Function.comp] at ha
      obtain ⟨_, _, rfl⟩ := ha
      simp only [List.map_flatMap, List.mem_flatMap, List.mem_map, List.map_map] at hb
      obtain ⟨k2, hk2, _, _, rfl⟩ := hb
      exact hk k2 hk2

/-- C9: the encoder enumerates position keys in ascending order, and across
the whole emitted stream the keys are non-decreasing: every record of a
position precedes every record of any position with a larger key. -/
theorem c9_keys_nondecreasing (maxVar : Nat) (tbl : OutTable) :
    (sortedKeys tbl).Pairwise (· ≤ ·) ∧
    ((output_book maxVar tbl).map Prod.fst).Pairwise (· ≤ ·) := by
  have hks : (sortedKeys tbl).Pairwise (· ≤ ·) := by
    have hp := sortBy_pairwise (fun a b : Nat => decide (a ≤ b))
      natDec_trans natDec_total (tbl.map Prod.fst)
    refine hp.imp ?_
    intro a b hab
    simpa only [decide_eq_true_eq] using hab
  exact ⟨hks, flatMap_fst_pairwise _ _ hks⟩

theorem statsList_cons (x : BMove) (l : List BMove) (u : String) :
    statsList (x :: l) u =
      if x.uci = u then x.stats :: statsList l u else statsList l u := by
  by_cases h : x.uci = u <;> simp [statsList, List.filter_cons, h]

theorem statsList_append (l1 l2 : List BMove) (u : String) :
    statsList (l1 ++ l2) u = statsList l1 u ++ statsList l2 u := by
  simp [statsList, List.filter_append]

theorem combS_comm (s t : MoveStats) : combS s t = combS t s := by
  simp only [combS, MoveStats.mk.injEq]
  omega

theorem combS_assoc (s t r : MoveStats) : combS (combS s t) r = combS s (combS t r) := by
  simp only [combS, MoveStats.mk.injEq]
  omega

theorem statComb_right_comm (a : Option MoveStats) (s t : MoveStats) :
    statComb (statComb a s) t = statComb (statComb a t) s := by
  cases a with
  | none => simp only [statComb, Option.some.injEq]; exact combS_comm s t
  | some r =>
    simp only [statComb, Option.some.injEq]
    rw [combS_assoc, combS_assoc, combS_comm s t]

theorem statComb_combS (a : Option MoveStats) (s t : MoveStats) :
    statComb a (combS s t) = statComb (statComb a s) t := by
  cases a with
  | none => simp [statComb]
  | some r => simp [statComb, combS_assoc]

theorem foldl_statComb_shift (ms : List MoveStats) (a : Option MoveStats) (s : MoveStats) :
    ms.foldl statComb (statComb a s) = statComb (ms.foldl statComb a) s := by
  induction ms generalizing a with
  | nil => rfl
  | cons x xs ih =>
    simp only [List.foldl_cons]
    rw [statComb_right_comm a s x]
    exact ih (statComb a x)

theorem foldl_statsList_add_move (l : List BMove) (m : BMove) (u : String)
    (a : Option MoveStats) :
    (statsList (add_move l m) u).foldl statComb a =
      if m.uci = u then statComb ((statsList l u).foldl statComb a) m.stats
      else (statsList l u).foldl statComb a := by
  induction l generalizing a with
  | nil =>
    by_cases hm : m.uci = u <;>
      simp [add_move, statsList, List.filter_cons, hm]
  | cons x xs ih =>
    by_cases hx : x.uci = m.uci
    · simp only [add_move, hx, if_true]
      by_cases hu : m.uci = u
      · have hxu : x.uci = u := hx.trans hu
        rw [statsList_cons, statsList_cons]
        simp only [hxu, if_true, hu, List.foldl_cons]
        have hcomb : statComb a ⟨x.stats.win + m.stats.win, x.stats.loss + m.stats.loss,
            min x.stats.depth m.stats.depth⟩ = statComb (statComb a x.stats) m.stats :=
          statComb_combS a x.stats m.stats
        rw [hcomb, foldl_statComb_shift]
      · have hxu : ¬ x.uci = u := fun hc => hu (hx ▸ hc)
        rw [statsList_cons, statsList_cons]
        simp only [hxu, if_false, hu]
    · simp only [add_move, hx, if_false]
      rw [statsList_cons, statsList_cons]
      by_cases hxu : x.uci = u
      · simp only [hxu, if_true, List.foldl_cons]
        rw [ih (statComb a x.stats)]
      · simp only [hxu, if_false]
        exact ih a

theorem foldl_statsList_merge_list (ms acc : List BMove) (u : String)
    (a : Option MoveStats) :
    (statsList (merge_list acc ms) u).foldl statComb a =
      (statsList ms u).foldl statComb ((statsList acc u).foldl statComb a) := by
  induction ms generalizing acc with
  | nil => rfl
  | cons m ms ih =>
    have hstep : merge_list acc (m :: ms) = merge_list (add_move acc m) ms := rfl
    rw [hstep, ih (add_move acc m), foldl_statsList_add_move, statsList_cons]
    by_cases hu : m.uci = u <;> simp only [hu, if_true, if_false, List.foldl_cons]

theorem cumStats_merge_list (acc ms : List BMove) (u : String) :
    cumStats (merge_list acc ms) u = (statsList ms u).foldl statComb (cumStats acc u) := by
  unfold cumStats
  exact foldl_statsList_merge_list ms acc u none

theorem cumStats_append (l1 l2 : List BMove) (u : String) :
    cumStats (l1 ++ l2) u = (statsList l2 u).foldl statComb (cumStats l1 u) := by
  simp [cumStats, statsList_append, List.foldl_append]

theorem cumStats_merge_eq_append (g s : List BMove) (u : String) :
    cumStats (merge_list g s) u = cumStats (g ++ s) u := by
  rw [cumStats_merge_list, cumStats_append]

theorem cumStats_foldl_merge (ts : List Table) (g : Table) (k : Nat) (u : String) :
    cumStats ((ts.foldl merge g) k) u =
      (statsList ((ts.map (fun t => t k)).flatten) u).foldl statComb (cumStats (g k) u) := by
  induction ts generalizing g with
  | nil => simp [statsList]
  | cons t ts ih =>
    simp only [List.foldl_cons, List.map_cons, List.flatten_cons]
    rw [ih (merge g t)]
    have hk : (merge g t) k = merge_list (g k) (t k) := rfl
    rw [hk, cumStats_merge_list, statsList_append, List.foldl_append]

theorem cumStats_mergeAll (ts : List Table) (k : Nat) (u : String) :
    cumStats (mergeAll ts k) u = cumStats ((ts.map (fun t => t k)).flatten) u := by
  unfold mergeAll
  rw [cumStats_foldl_merge]
  rfl

theorem cumStats_perm {l1 l2 : List BMove} (h : List.Perm l1 l2) (u : String) :
    cumStats l1 u = cumStats l2 u := by
  unfold cumStats statsList
  exact List.Perm.foldl_eq' ((h.filter _).map _)
    (fun x _ y _ z => statComb_right_comm z x y) none

theorem mem_add_move_uci (l : List BMove) (m z : BMove) (hz : z ∈ add_move l m) :
    z.uci ∈ l.map (fun x => x.uci) ∨ z.uci = m.uci := by
  induction l with
  | nil =>
    simp only [add_move, List.mem_singleton] at hz
    exact Or.inr (by rw [hz])
  | cons x xs ih =>
    simp only [add_move] at hz
    by_cases hx : x.uci = m.uci
    · rw [if_pos hx] at hz
      rcases List.mem_cons.mp hz with rfl | hzz
      · exact Or.inl (by simp)
      · exact Or.inl (List.mem_map.mpr ⟨z, List.mem_cons_of_mem x hzz, rfl⟩)
    · rw [if_neg hx] at hz
      rcases List.mem_cons.mp hz with rfl | hzz
      · exact Or.inl (by simp)
      · rcases ih hzz with h | h
        · obtain ⟨w, hw, hwz⟩ := List.mem_map.mp h
          exact Or.inl (List.mem_map.mpr ⟨w, List.mem_cons_of_mem x hw, hwz⟩)
        · exact Or.inr h

theorem add_move_pairwise_uci (l : List BMove) (m : BMove)
    (h : l.Pairwise (fun a b => a.uci ≠ b.uci)) :
    (add_move l m).Pairwise (fun a b => a.uci ≠ b.uci) := by
  induction l with
  | nil => simp [add_move]
  | cons x xs ih =>
    rcases List.pairwise_cons.mp h with ⟨hx, hxs⟩
    simp only [add_move]
    by_cases hxm : x.uci = m.uci
    · rw [if_pos hxm]
      exact List.pairwise_cons.mpr ⟨fun z hz => hx z hz, hxs⟩
    · rw [if_neg hxm]
      refine List.pairwise_cons.mpr ⟨?_, ih hxs⟩
      intro z hz
      rcases mem_add_move_uci xs m z hz with hm | hm
      · rcases List.mem_map.mp hm with ⟨w, hw, hwz⟩
        rw [← hwz]
        exact hx w hw
      · rw [hm]
        exact hxm

theorem merge_list_pairwise_uci (ms acc : List BMove)
    (h : acc.Pairwise (fun a b => a.uci ≠ b.uci)) :
    (merge_list acc ms).Pairwise (fun a b => a.uci ≠ b.uci) := by
  induction ms generalizing acc with
  | nil => exact h
  | cons m ms ih => exact ih (add_move acc m) (add_move_pairwise_uci acc m h)

theorem statsList_eq_nil (l : List BMove) (u : String)
    (h : ∀ z ∈ l, z.uci ≠ u) : statsList l u = [] := by
  unfold statsList
  rw [List.filter_eq_nil_iff.mpr]
  · rfl
  · intro z hz
    simp only [beq_iff_eq]
    exact h z hz

theorem statsOf_eq_cumStats (l : List BMove) (u : String)
    (h : l.Pairwise (fun a b => a.uci ≠ b.uci)) :
    statsOf l u = cumStats l u := by
  induction l with
  | nil => rfl
  | cons x xs ih =>
    rcases List.pairwise_cons.mp h with ⟨hx, hxs⟩
    by_cases hxu : x.uci = u
    · have hnil : statsList xs u = [] := by
        refine statsList_eq_nil xs u ?_
        intro z hz
        rw [← hxu]
        exact fun hc => (hx z hz) hc.symm
      unfold statsOf cumStats
      rw [statsList_cons]
      simp [List.find?_cons, hxu, hnil, statComb]
    · unfold statsOf cumStats
      rw [statsList_cons]
      unfold statsOf cumStats at ih
      simp only [hxu, if_false]
      rw [← ih hxs]
      simp [List.find?_cons, hxu]

theorem foldl_merge_pairwise (ts : List Table) (g : Table) (k : Nat)
    (h : (g k).Pairwise (fun a b => a.uci ≠ b.uci)) :
    ((ts.foldl merge g) k).Pairwise (fun a b => a.uci ≠ b.uci) := by
  induction ts generalizing g with
  | nil => exact h
  | cons t ts ih =>
    simp only [List.foldl_cons]
    exact ih (merge g t) (merge_list_pairwise_uci (t k) (g k) h)

theorem mergeAll_pairwise (ts : List Table) (k : Nat) :
    (mergeAll ts k).Pairwise (fun a b => a.uci ≠ b.uci) :=
  foldl_merge_pairwise ts emptyTable k (List.Pairwise.nil)

theorem add_move_append (l : List BMove) (m : BMove) (hab : ∀ e ∈ l, e.uci ≠ m.uci) :
    add_move l m = l ++ [m] := by
  induction l with
  | nil => rfl
  | cons x xs ih =>
    have hx : x.uci ≠ m.uci := hab x (List.mem_cons_self x xs)
    simp only [add_move, if_neg hx, List.cons_append]
    rw [ih (fun e he => hab e (List.mem_cons_of_mem x he))]

theorem add_move_update (m : BMove) :
    ∀ (l : List BMove), l.Pairwise (fun a b => a.uci ≠ b.uci) →
      (∃ e ∈ l, e.uci = m.uci) →
      add_move l m = l.map (fun x => if x.uci = m.uci then
        ⟨x.uci, ⟨x.stats.win + m.stats.win, x.stats.loss + m.stats.loss,
                 min x.stats.depth m.stats.depth⟩⟩ else x) := by
  intro l
  induction l with
  | nil =>
    rintro _ ⟨e, he, -⟩
    exact absurd he (List.not_mem_nil e)
  | cons x xs ih =>
    rintro h ⟨e, he, heq⟩
    rcases List.pairwise_cons.mp h with ⟨hx, hxs⟩
    by_cases hxm : x.uci = m.uci
    · have hnone : ∀ z ∈ xs, ¬ z.uci = m.uci :=
        fun z hz hc => (hx z hz) (hxm.trans hc.symm)
      have htail : xs.map (fun y => if y.uci = m.uci then
          (⟨y.uci, ⟨y.stats.win + m.stats.win, y.stats.loss + m.stats.loss,
            min y.stats.depth m.stats.depth⟩⟩ : BMove) else y) = xs := by
        calc xs.map (fun y => if y.uci = m.uci then
                (⟨y.uci, ⟨y.stats.win + m.stats.win, y.stats.loss + m.stats.loss,
                  min y.stats.depth m.stats.depth⟩⟩ : BMove) else y)
            = xs.map (fun a => a) :=
              List.map_congr_left (fun a ha => if_neg (hnone a ha))
          _ = xs := List.map_id' xs
      simp only [add_move, if_pos hxm, List.map_cons, htail]
    · have hex : e ≠ x := fun hc => hxm (by rw [← hc]; exact heq)
      have hemem : e ∈ xs := by
        rcases List.mem_cons.mp he with h1 | h1
        · exact absurd h1 hex
        · exact h1
      simp only [add_move, if_neg hxm, List.map_cons]
      rw [ih hxs ⟨e, hemem, heq⟩]

/-- C6: with pairwise-distinct move texts, inserting an observation whose move
text matches an existing entry sums the counters into that entry and takes the
minimum depth; otherwise the observation is appended.  Move-text uniqueness is
preserved by every `add_move` and `merge`, and observing the same move twice
(once WIN, once LOSS) yields exactly one entry with win = 2 and loss = 2. -/
theorem c6_dedup_invariant (l : List BMove) (m : BMove) (d1 d2 : Nat)
    (h : l.Pairwise (fun a b => a.uci ≠ b.uci)) :
    ((∀ e ∈ l, e.uci ≠ m.uci) → add_move l m = l ++ [m]) ∧
    ((∃ e ∈ l, e.uci = m.uci) →
      add_move l m = l.map (fun x => if x.uci = m.uci then
        ⟨x.uci, ⟨x.stats.win + m.stats.win, x.stats.loss + m.stats.loss,
                 min x.stats.depth m.stats.depth⟩⟩ else x)) ∧
    (add_move l m).Pairwise (fun a b => a.uci ≠ b.uci) ∧
    (∀ ms, (merge_list l ms).Pairwise (fun a b => a.uci ≠ b.uci)) ∧
    add_move (add_move [] ⟨m.uci, ⟨2, 0, d1⟩⟩) ⟨m.uci, ⟨0, 2, d2⟩⟩ =
      [⟨m.uci, ⟨2, 2, min d1 d2⟩⟩] := by
  refine ⟨add_move_append l m, add_move_update m l h,
    add_move_pairwise_uci l m h, fun ms => merge_list_pairwise_uci ms l h, ?_⟩
  simp [add_move]

theorem c6_dedup_invariant_witness :
    ([⟨"e2e4", ⟨2, 0, 5⟩⟩] : List BMove).Pairwise (fun a b => a.uci ≠ b.uci) ∧
    add_move (add_move [] ⟨"d2d4", ⟨2, 0, 4⟩⟩) ⟨"d2d4", ⟨0, 2, 9⟩⟩ =
      [⟨"d2d4", ⟨2, 2, min 4 9⟩⟩] :=
  ⟨List.pairwise_singleton _ _,
    (c6_dedup_invariant [⟨"e2e4", ⟨2, 0, 5⟩⟩] ⟨"d2d4", ⟨0, 0, 0⟩⟩ 4 9
      (List.pairwise_singleton _ _)).2.2.2.2⟩

/-- C3: merged statistics are independent of merge order and grouping: for a
permuted collection of scratch tables the final table carries the same
per-position, per-move statistics, and the cumulative statistics produced by
`merge` are associative and commutative. -/
theorem c3_merge_order_independent (ts1 ts2 : List Table)
    (h : List.Perm ts1 ts2) (A B C : Table) (k : Nat) (u : String) :
    statsOf (mergeAll ts1 k) u = statsOf (mergeAll ts2 k) u ∧
    cumStats (merge (merge A B) C k) u = cumStats (merge A (merge B C) k) u ∧
    cumStats (merge A B k) u = cumStats (merge B A k) u := by
  refine ⟨?_, ?_, ?_⟩
  · rw [statsOf_eq_cumStats _ _ (mergeAll_pairwise ts1 k),
        statsOf_eq_cumStats _ _ (mergeAll_pairwise ts2 k),
        cumStats_mergeAll, cumStats_mergeAll]
    exact cumStats_perm ((h.map _).flatten) u
  · have h1 : merge (merge A B) C k = merge_list (merge_list (A k) (B k)) (C k) := rfl
    have h2 : merge A (merge B C) k = merge_list (A k) (merge_list (B k) (C k)) := rfl
    have l1 : cumStats (merge_list (merge_list (A k) (B k)) (C k)) u
        = (statsList (C k) u).foldl statComb
            ((statsList (B k) u).foldl statComb (cumStats (A k) u)) := by
      rw [cumStats_merge_list, cumStats_merge_list]
    have l2 : cumStats (merge_list (A k) (merge_list (B k) (C k))) u
        = (statsList (C k) u).foldl statComb
            ((statsList (B k) u).foldl statComb (cumStats (A k) u)) := by
      rw [cumStats_merge_list, foldl_statsList_merge_list]
    rw [h1, h2, l1, l2]
  · have h1 : merge A B k = merge_list (A k) (B k) := rfl
    have h2 : merge B A k = merge_list (B k) (A k) := rfl
    rw [h1, h2, cumStats_merge_eq_append, cumStats_merge_eq_append]
    exact cumStats_perm List.perm_append_comm u

theorem c3_merge_order_independent_witness :
    List.Perm [(fun _ => [⟨"e2e4", ⟨2, 0, 3⟩⟩] : Table), fun _ => [⟨"e2e4", ⟨0, 2, 7⟩⟩]]
      [(fun _ => [⟨"e2e4", ⟨0, 2, 7⟩⟩] : Table), fun _ => [⟨"e2e4", ⟨2, 0, 3⟩⟩]] ∧
    statsOf (mergeAll [(fun _ => [⟨"e2e4", ⟨2, 0, 3⟩⟩] : Table), fun _ => [⟨"e2e4", ⟨0, 2, 7⟩⟩]] 0) "e2e4"
      = statsOf (mergeAll [(fun _ => [⟨"e2e4", ⟨0, 2, 7⟩⟩] : Table), fun _ => [⟨"e2e4", ⟨2, 0, 3⟩⟩]] 0) "e2e4" :=
  ⟨List.Perm.swap _ _ _,
    (c3_merge_order_independent _ _ (List.Perm.swap _ _ _)
      emptyTable emptyTable emptyTable 0 "e2e4").1⟩

/-- C7: an observation passing the depth gate and the relevance gate records
exactly (win+2, loss+0) for a WIN of the moving side, (win+0, loss+2) for a
LOSS, and (win+1, loss+0) for a DRAW, at the current ply depth. -/
theorem c7_observation_increments (cfgDepth depth : Nat) (hd : depth < cfgDepth)
    (t : Table) (k : Nat) (u : String) :
    on_move cfgDepth true GameResult.win depth t k u = add t k ⟨u, ⟨2, 0, depth⟩⟩ ∧
    on_move cfgDepth true GameResult.loss depth t k u = add t k ⟨u, ⟨0, 2, depth⟩⟩ ∧
    on_move cfgDepth true GameResult.draw depth t k u = add t k ⟨u, ⟨1, 0, depth⟩⟩ := by
  refine ⟨?_, ?_, ?_⟩ <;> simp [on_move, hd, resultStats]

theorem c7_observation_increments_witness :
    (0 : Nat) < 30 ∧
    on_move 30 true GameResult.draw 0 emptyTable 9 "g1f3" =
      add emptyTable 9 ⟨"g1f3", ⟨1, 0, 0⟩⟩ :=
  ⟨by decide, (c7_observation_increments 30 0 (by decide) emptyTable 9 "g1f3").2.2⟩

/-- C10: a game's scratch table is merged into the global table exactly when
its mainline move count reaches `depth // 2`; shorter games contribute
nothing, so dropping them from the game sequence leaves the result
unchanged. -/
theorem c10_short_game_gate (cfgDepth : Nat) (games : List Game) (glob : Table) (g : Game) :
    (cfgDepth / 2 ≤ g.numMoves → processGame cfgDepth glob g = merge glob g.scratch) ∧
    (g.numMoves < cfgDepth / 2 → processGame cfgDepth glob g = glob) ∧
    read_pgn_file cfgDepth games glob =
      read_pgn_file cfgDepth (games.filter (fun g2 => decide (cfgDepth / 2 ≤ g2.numMoves))) glob := by
  refine ⟨fun h => by simp [processGame, h], ?_, ?_⟩
  · intro h
    simp only [processGame]
    rw [if_neg (by omega)]
  · induction games generalizing glob with
    | nil => rfl
    | cons g2 gs ih =>
      simp only [read_pgn_file, List.foldl_cons, List.filter_cons] at ih ⊢
      by_cases hg : cfgDepth / 2 ≤ g2.numMoves
      · have hcond : decide (cfgDepth / 2 ≤ g2.numMoves) = true := decide_eq_true hg
        simp only [hcond, if_true, List.foldl_cons]
        exact ih (processGame cfgDepth glob g2)
      · have hcond : decide (cfgDepth / 2 ≤ g2.numMoves) = false := decide_eq_false hg
        simp only [hcond, Bool.false_eq_true, if_false]
        have hskip : processGame cfgDepth glob g2 = glob := by
          simp only [processGame]
          rw [if_neg hg]
        rw [hskip]
        exact ih glob

theorem c10_short_game_gate_witness :
    ((30 : Nat) / 2 ≤ 20 ∧ processGame 30 emptyTable ⟨20, emptyTable⟩ = merge emptyTable emptyTable) ∧
    ((7 : Nat) < 30 / 2 ∧ processGame 30 emptyTable ⟨7, emptyTable⟩ = emptyTable) :=
  ⟨⟨by decide, (c10_short_game_gate 30 [] emptyTable ⟨20, emptyTable⟩).1 (by decide)⟩,
   ⟨by decide, (c10_short_game_gate 30 [] emptyTable ⟨7, emptyTable⟩).2.1 (by decide)⟩⟩

/-- C1 (evaluation of the code at the failing input): `output_book` computes
the filtered move list only to test it for emptiness and then emits the
*unfiltered* list, so a move with zero wins (here `d2d4`, win = 0, loss = 2,
which fails `win >= max(2, loss)`) is still published alongside a qualifying
move. -/
theorem c1_zero_win_move_emitted :
    passes ⟨"d2d4", ⟨0, 2, 0⟩⟩ = false ∧
    output_book 10 [(7, [⟨"e2e4", ⟨4, 0, 0⟩⟩, ⟨"d2d4", ⟨0, 2, 0⟩⟩])] =
      [(7, ⟨"e2e4", ⟨4, 0, 0⟩⟩), (7, ⟨"d2d4", ⟨0, 2, 0⟩⟩)] := by
  constructor
  · decide
  · norm_num [output_book, sortedKeys, sortBy, insertLE, lookupT, emitForKey, passes,
      sortMoves, descBy, keyLE, sort_key, List.filter, List.flatMap]

/-- C2 (evaluation of the code at the failing input): for a cumulative win
count of `2 ^ 65535` the computed weight is `max(1, log2(win)) = 65535`,
which is positive — yet `make_entry` packs `weight % 65535 = 0` into the
16-bit weight field, emitting a zero weight. -/
theorem c2_weight_field_wraps_to_zero :
    stats ⟨"e2e4", ⟨2 ^ 65535, 0, 0⟩⟩ = (65535, 0) ∧
    (make_entry 0 ⟨12, 28, none⟩ 65535 0).map (fun e => e.2.2.1) = some 0 := by
  constructor
  · have h2 : (2 : Nat) ^ 65535 ≠ 0 := (pow_pos (by norm_num : (0 : ℕ) < 2) 65535).ne'
    have hlog : log2 (2 ^ 65535) = 65535 := by
      unfold log2
      rw [if_neg h2, Nat.log_pow (by norm_num : 1 < 2)]
    have hloss : log2 0 = 0 := rfl
    simp only [stats, hlog, hloss, Prod.mk.injEq]
    exact ⟨by decide, trivial⟩
  · simp [make_entry, Nat.mod_self]

/-- C5 counterexample: no allow-list can be built from a last-name-only entry
at all — `read_ranked` fails (Python `IndexError` on `row[1]`) on the row
`["Polgar"]`, so such an entry cannot accept anything. -/
theorem c5_lastname_only_entry_fails :
    ¬ ∃ pats : List NamePat, read_ranked [["Polgar"]] = some pats := by
  rintro ⟨pats, h⟩
  have hn : read_ranked [["Polgar"]] = none := by decide
  rw [hn] at h
  exact Option.noConfusion h

/-- C5 (amended): with the allow-list built from `("Kasparov", "G")` the
filter accepts `(Kasparov, G)`, `(Kasparov, G.)`, `(Kasparov, Gary)`,
`(Kasparov, Garry)` and the bare last name `(Kasparov,)`, rejects
`(Kasparov, Sergey)`, and a name failing in (last, first) order is retried
and accepted in reversed (first, last) order; a last-name-only *allow-list
entry* is not constructible (`read_ranked` fails on it). -/
theorem c5_relevance_filter_matching :
    is_ranked (read_ranked [["Kasparov", "G"]]) ["Kasparov", "G"] = true ∧
    is_ranked (read_ranked [["Kasparov", "G"]]) ["Kasparov", "G."] = true ∧
    is_ranked (read_ranked [["Kasparov", "G"]]) ["Kasparov", "Gary"] = true ∧
    is_ranked (read_ranked [["Kasparov", "G"]]) ["Kasparov", "Garry"] = true ∧
    is_ranked (read_ranked [["Kasparov", "G"]]) ["Kasparov", "Sergey"] = false ∧
    is_ranked (read_ranked [["Kasparov", "G"]]) ["Kasparov"] = true ∧
    is_ranked (read_ranked [["Kasparov", "G"]]) ["Garry", "Kasparov"] = true ∧
    read_ranked [["Polgar"]] = none := by
  decide
